import Mathlib

/-!
Verification development for a Monte Carlo GBM path-population engine.

The definitions below are shallow embeddings of the Python sources:
* `gbm/simulation/path_manager.py`   — `PathManager`
* `gbm/simulation/path_generator.py` — `PathGenerator`
* `gbm/simulation/reversal_zones.py` — `ReversalZoneDetector.detect_zones`
* `gbm/data/multi_timeframe.py`      — `MultiTimeframeManager`

Prices, tolerances and timestamps handled by the path manager are embedded as
exact rationals; the generator's prices (which involve `exp`) live in `ℝ`.
-/

namespace GBM

/-! ### Nearest-timestamp lookup

`pandas.DatetimeIndex.get_indexer([ts], method="nearest")` on a monotonic
index returns the index of the closest timestamp, breaking ties towards the
larger index, and clamps out-of-range targets to the first/last position.
`nearestAux` scans the remaining timestamps keeping the current best
`(index, value)` pair; a later timestamp replaces the best exactly when its
distance is `≤` the best distance, which reproduces the larger-index
tie-break. -/

def nearestAux (ts : ℚ) : List ℚ → ℕ → (ℕ × ℚ) → (ℕ × ℚ)
  | [], _, best => best
  | t :: rest, i, best =>
    nearestAux ts rest (i + 1) (if |t - ts| ≤ |best.2 - ts| then (i, t) else best)

def nearestIdx (T : List ℚ) (ts : ℚ) : Option ℕ :=
  match T with
  | [] => none
  | t :: rest => some (nearestAux ts rest 1 (0, t)).1

/-! ### Path manager (`path_manager.py`)

`paths` is the list of simulated paths (each a price series), `timeIndex` the
shared time grid, `active` the live set (`self.active_paths`), and `elimAt`
the per-path elimination metadata: `elimAt i = some ts` exactly when the
source has `eliminated = True, eliminated_at = ts` for path `i`. -/

structure PathManager where
  paths : List (List ℚ)
  timeIndex : List ℚ
  active : Finset ℕ
  elimAt : ℕ → Option ℚ

/-- Embeds `PathManager.__init__`: all paths start active, no elimination metadata. -/
def mkPathManager (paths : List (List ℚ)) (timeIndex : List ℚ) : PathManager :=
  ⟨paths, timeIndex, Finset.range paths.length, fun _ => none⟩

/-- Embeds `PathManager.get_path_at_time`: `None` for an out-of-range path index,
otherwise the path's value at the nearest grid position (and `None` when the
grid is empty or the nearest position falls beyond the path's length — the
source catches the lookup error resp. checks `idx < len(self.paths[i])`). -/
def get_path_at_time (pm : PathManager) (i : ℕ) (ts : ℚ) : Option ℚ :=
  if i < pm.paths.length then
    match nearestIdx pm.timeIndex ts with
    | none => none
    | some idx => (pm.paths.getD i [])[idx]?
  else none

/-- The elimination test applied to one active path: deviation
`|p - actual| / actual` strictly above `tolerance`; a path with no value at
the timestamp is skipped (`continue`). -/
def shouldRemove (pm : PathManager) (actual ts tol : ℚ) (i : ℕ) : Bool :=
  match get_path_at_time pm i ts with
  | none => false
  | some p => decide (tol < |p - actual| / actual)

/-- The set of active paths the call removes (`paths_to_remove`). -/
def removedSet (pm : PathManager) (actual ts tol : ℚ) : Finset ℕ :=
  pm.active.filter (fun i => shouldRemove pm actual ts tol i = true)

/-- Embeds `PathManager.eliminate_paths`. The Python loop divides by `actual_price`,
so when `actual = 0` and some active path yields a price the call raises
`ZeroDivisionError` (modelled as `Except.error`; the removal loop has not run
at that point, so the live set is unchanged when the exception propagates).
Otherwise it removes every active path whose deviation exceeds the tolerance,
stamps its elimination metadata with `ts`, and returns the number removed. -/
def eliminate_paths (pm : PathManager) (actual ts tol : ℚ) :
    Except Unit (PathManager × ℕ) :=
  if actual = 0 ∧ ∃ i ∈ pm.active, (get_path_at_time pm i ts).isSome then
    .error ()
  else
    .ok
      (⟨pm.paths, pm.timeIndex, pm.active \ removedSet pm actual ts tol,
        fun i => if i ∈ removedSet pm actual ts tol then some ts else pm.elimAt i⟩,
       (removedSet pm actual ts tol).card)

/-- Embeds `PathManager.get_statistics` (counts as integers, rate as a rational;
the source returns `0.0` for an empty collection). -/
structure Stats where
  num_total : ℤ
  num_active : ℤ
  num_eliminated : ℤ
  survival_rate : ℚ
  deriving DecidableEq

def get_statistics (pm : PathManager) : Stats :=
  let n : ℕ := pm.paths.length
  let a : ℕ := pm.active.card
  ⟨(n : ℤ), (a : ℤ), (n : ℤ) - (a : ℤ),
   if 0 < n then (a : ℚ) / (n : ℚ) else 0⟩

/-- Embeds `PathManager.get_all_paths_at_time`: the prices of all active paths at the
timestamp (paths with no value skipped). The source iterates a Python set of
small integers; the order is irrelevant to every consumer (histogram, length,
mean), so the live indices are enumerated in increasing order. -/
def get_all_paths_at_time (pm : PathManager) (ts : ℚ) : List ℚ :=
  (pm.active.sort (· ≤ ·)).filterMap (fun i => get_path_at_time pm i ts)

/-- The `"mean"` field of `PathManager.get_path_bounds_at_time` — the only
field `detect_zones` consumes: `None` when there is no active path or no
active path has a value, else the mean of the sampled prices. -/
def boundsMean (pm : PathManager) (ts : ℚ) : Option ℚ :=
  if pm.active = ∅ then none
  else
    let prices := get_all_paths_at_time pm ts
    if prices = [] then none else some (prices.sum / (prices.length : ℚ))

/-! ### Reversal zone detector (`reversal_zones.py`, `detect_zones`)

`np.histogram(prices, bins=B)` bins uniformly over `[min, max]` (expanded to
`[min - 1/2, max + 1/2]` when the range is zero, as numpy does); bin `i` is
half-open `[e_i, e_{i+1})` except the last bin, which also contains the upper
edge. -/

inductive ZoneType
  | support
  | resistance
  | convergence
  deriving DecidableEq

structure Zone where
  price_level : ℚ
  price_low : ℚ
  price_high : ℚ
  probability : ℚ
  path_count : ℕ
  zone_type : ZoneType
  deriving DecidableEq

def qMin : List ℚ → ℚ
  | [] => 0
  | x :: xs => xs.foldl min x

def qMax : List ℚ → ℚ
  | [] => 0
  | x :: xs => xs.foldl max x

def histRange (prices : List ℚ) : ℚ × ℚ :=
  let lo := qMin prices
  let hi := qMax prices
  if lo = hi then (lo - 1 / 2, hi + 1 / 2) else (lo, hi)

def binEdge (lo hi : ℚ) (B k : ℕ) : ℚ :=
  lo + (k : ℚ) * (hi - lo) / (B : ℚ)

def inBin (lo hi : ℚ) (B i : ℕ) (p : ℚ) : Bool :=
  if i + 1 = B then
    decide (binEdge lo hi B i ≤ p ∧ p ≤ binEdge lo hi B (i + 1))
  else
    decide (binEdge lo hi B i ≤ p ∧ p < binEdge lo hi B (i + 1))

def binCount (prices : List ℚ) (lo hi : ℚ) (B i : ℕ) : ℕ :=
  (prices.filter (inBin lo hi B i)).length

/-- Embeds `max(hist)` over all `B` bins. -/
def maxBinCount (prices : List ℚ) (lo hi : ℚ) (B : ℕ) : ℕ :=
  ((List.range B).map (binCount prices lo hi B)).foldr max 0

/-- The source's zone condition `count >= min_paths and count >= threshold`
with `threshold = max(hist) * 0.3`. -/
def binQualifies (prices : List ℚ) (lo hi : ℚ) (B minPaths i : ℕ) : Bool :=
  decide (minPaths ≤ binCount prices lo hi B i) &&
  decide ((3 / 10 : ℚ) * (maxBinCount prices lo hi B : ℚ) ≤ (binCount prices lo hi B i : ℚ))

/-- The zone record emitted for a qualifying bin: midpoint, edges,
`probability = count / len(prices)`, and the type chosen by comparing the
midpoint with the mean of the sampled prices. -/
def mkZone (pm : PathManager) (ts : ℚ) (prices : List ℚ) (lo hi : ℚ) (B i : ℕ) : Zone :=
  let lowE := binEdge lo hi B i
  let highE := binEdge lo hi B (i + 1)
  let center := (lowE + highE) / 2
  let cnt := binCount prices lo hi B i
  let ztype :=
    match boundsMean pm ts with
    | some m =>
      if center < m then ZoneType.support
      else if m < center then ZoneType.resistance
      else ZoneType.convergence
    | none => ZoneType.convergence
  ⟨center, lowE, highE, (cnt : ℚ) / (prices.length : ℚ), cnt, ztype⟩

/-- Stable insertion for descending-probability order: `z` is placed before
the first element whose probability is not strictly greater, so elements with
equal probability keep their original relative order — exactly the outcome of
Python's stable `zones.sort(key=probability, reverse=True)`. -/
def insertZoneDesc (z : Zone) : List Zone → List Zone
  | [] => [z]
  | w :: ws =>
    if z.probability < w.probability then w :: insertZoneDesc z ws else z :: w :: ws

def sortZonesDesc (l : List Zone) : List Zone :=
  l.foldr insertZoneDesc []

/-- The zones of the qualifying bins, in ascending bin order (the order the
source's loop appends them in, before sorting). -/
def qualifyingZones (pm : PathManager) (ts : ℚ) (numBins minPaths : ℕ) : List Zone :=
  let prices := get_all_paths_at_time pm ts
  let r := histRange prices
  ((List.range numBins).filter
      (fun i => binQualifies prices r.1 r.2 numBins minPaths i = true)).map
    (mkZone pm ts prices r.1 r.2 numBins)

/-- Embeds `ReversalZoneDetector.detect_zones` at an explicit timestamp. -/
def detect_zones (pm : PathManager) (ts : ℚ) (numBins minPaths : ℕ) : List Zone :=
  if (get_all_paths_at_time pm ts).length < minPaths then []
  else sortZonesDesc (qualifyingZones pm ts numBins minPaths)

/-- The output order the claim describes: descending probability, ties
broken by smaller price level first. -/
def zoneOrder (a b : Zone) : Prop :=
  b.probability < a.probability ∨
    (b.probability = a.probability ∧ a.price_level < b.price_level)

/-! ### Path generator (`path_generator.py`)

The numpy global RNG is embedded as a stream of standard-normal draws
together with a cursor; `np.random.normal(0, 1, n)` consumes the next `n`
draws in order. `np.random.seed(seed)` resets the stream as a function of the
seed alone, so a fixed seed fixes the whole stream. -/

structure RNG where
  stream : ℕ → ℝ
  pos : ℕ

/-- Draw `n` standard normals in order, advancing the cursor. -/
def drawMany (g : RNG) (n : ℕ) : List ℝ × RNG :=
  ((List.range n).map (fun k => g.stream (g.pos + k)), ⟨g.stream, g.pos + n⟩)

/-- Embeds `self.dt = 1.0 / (252 * 6.5 * 60)`. -/
noncomputable def dtv : ℝ := 1 / (252 * 6.5 * 60)

/-- One GBM update: `S * exp((mu - 0.5*sigma^2)*dt + sigma*dW)`. -/
noncomputable def gbmNext (mu sigma dt prev dw : ℝ) : ℝ :=
  prev * Real.exp ((mu - 0.5 * sigma ^ 2) * dt + sigma * dw)

/-- The tail of a path driven by the listed Brownian increments. -/
noncomputable def pathTail (mu sigma dt : ℝ) (prev : ℝ) : List ℝ → List ℝ
  | [] => []
  | dw :: rest => gbmNext mu sigma dt prev dw :: pathTail mu sigma dt (gbmNext mu sigma dt prev dw) rest

/-- Embeds `PathGenerator._generate_single_path` given its Brownian increments
`dW = ε * sqrt(dt)`: the starting price followed by the recurrence. -/
noncomputable def generate_single_path (S0 mu sigma dt : ℝ) (dWs : List ℝ) : List ℝ :=
  S0 :: pathTail mu sigma dt S0 dWs

structure GenCfg where
  S0 : ℝ
  mu : ℝ
  sigma : ℝ
  H : ℕ
  N : ℕ

/-- One call of `_generate_single_path`: draw `H` normals from the shared
generator, scale by `sqrt(dt)`, run the recurrence. -/
noncomputable def genSingle (c : GenCfg) (g : RNG) : List ℝ × RNG :=
  let d := drawMany g c.H
  (generate_single_path c.S0 c.mu c.sigma dtv (d.1.map (fun e => e * Real.sqrt dtv)), d.2)

/-- The generation loop `for _ in range(num_paths)`: paths in order, the RNG
threaded through. -/
noncomputable def genPathsAux (c : GenCfg) : ℕ → RNG → List (List ℝ) × RNG
  | 0, g => ([], g)
  | n + 1, g =>
    let p := genSingle c g
    let ps := genPathsAux c n p.2
    (p.1 :: ps.1, ps.2)

/-- Embeds `pd.date_range(start, periods=H+1, freq="1min")` as minute offsets. -/
def timeGrid (start : ℤ) (H : ℕ) : List ℤ :=
  (List.range (H + 1)).map (fun (k : ℕ) => start + (k : ℤ))

/-- Embeds `PathGenerator.generate_paths` with a seed: seeding resets the draw
cursor to the start of the seed-determined stream. -/
noncomputable def generate_paths (c : GenCfg) (stream : ℕ → ℝ) (start : ℤ) :
    List (List ℝ) × List ℤ :=
  ((genPathsAux c c.N ⟨stream, 0⟩).1, timeGrid start c.H)

/-! ### Multi-timeframe manager (`multi_timeframe.py`) -/

inductive Timeframe
  | d1
  | h4
  | h1
  | m15
  | m5
  | m1
  deriving DecidableEq

def HTF_TIMEFRAMES : List Timeframe := [Timeframe.d1, Timeframe.h4, Timeframe.h1]

/-- Embeds `MultiTimeframeManager._get_periods_per_year` (`6.5 = 13/2` exactly). -/
def periods_per_year : Timeframe → ℚ
  | Timeframe.d1 => 252
  | Timeframe.h4 => 252 * (13 / 2) / 4
  | Timeframe.h1 => 252 * (13 / 2)
  | Timeframe.m15 => 252 * (13 / 2) * 4
  | Timeframe.m5 => 252 * (13 / 2) * 12
  | Timeframe.m1 => 252 * (13 / 2) * 60

structure Bar where
  ts : ℤ
  bopen : ℚ
  bhigh : ℚ
  blow : ℚ
  bclose : ℚ
  volume : ℚ
  deriving DecidableEq

/-- Embeds `close.pct_change().dropna()`: `r_t = close_t / close_{t-1} - 1`. -/
def pctChangeReturns (closes : List ℚ) : List ℚ :=
  (closes.zip closes.tail).map (fun pr => pr.2 / pr.1 - 1)

def qMean (l : List ℚ) : ℚ := l.sum / (l.length : ℚ)

/-- Embeds `Series.std()` with pandas' default `ddof=1` (sample standard
deviation). -/
noncomputable def sampleStd (l : List ℚ) : ℝ :=
  Real.sqrt ((l.map (fun x => ((x - qMean l : ℚ) : ℝ) ^ 2)).sum / ((l.length : ℝ) - 1))

/-- Embeds `MultiTimeframeManager.calculate_htf_parameters`: only the HTF
timeframes are visited; a timeframe is skipped when it has fewer than two
bars (or no returns); otherwise `mu = mean(r) * ppy` and
`sigma = std(r) * ppy ** 0.5`. -/
noncomputable def calculate_htf_parameters (data : Timeframe → List Bar) :
    List (Timeframe × ℚ × ℝ) :=
  HTF_TIMEFRAMES.filterMap (fun tf =>
    let df := data tf
    if df.length < 2 then none
    else
      let returns := pctChangeReturns (df.map Bar.bclose)
      if returns.length = 0 then none
      else
        some (tf, qMean returns * periods_per_year tf,
          sampleStd returns * Real.sqrt ((periods_per_year tf : ℚ) : ℝ)))

/-- Stable ascending insertion by timestamp, modelling
`DataFrame.sort_index()` on the concatenated frame. -/
def insertBar (b : Bar) : List Bar → List Bar
  | [] => [b]
  | c :: cs => if c.ts ≤ b.ts then c :: insertBar b cs else b :: c :: cs

def sortBars (l : List Bar) : List Bar :=
  l.foldr insertBar []

/-- The per-timeframe body of `MultiTimeframeManager.update_latest_bars`:
the fetched bar is appended (and the series re-sorted) only when a bar was
obtained, the stored series is nonempty, and the bar's timestamp is not
already present; in every other case the stored series is left unchanged. -/
def update_latest_one (series : List Bar) (bar : Option Bar) : List Bar :=
  match bar with
  | none => series
  | some b =>
    if series = [] then series
    else if b.ts ∈ series.map Bar.ts then series
    else sortBars (series ++ [b])

/-! ### Helpers for stating properties of elimination sequences -/

def exceptIsOk {ε α : Type} : Except ε α → Bool
  | .ok _ => true
  | .error _ => false

/-- The population after one `eliminate_paths` call; when the call raises,
the source's removal loop has not run, so the live set is that of the input
population. -/
def elimState (pm : PathManager) (actual ts tol : ℚ) : PathManager :=
  match eliminate_paths pm actual ts tol with
  | .ok p => p.1
  | .error _ => pm

/-- The count returned by one `eliminate_paths` call. -/
def elimCount (pm : PathManager) (actual ts tol : ℚ) : ℕ :=
  match eliminate_paths pm actual ts tol with
  | .ok p => p.2
  | .error _ => 0

structure ElimCall where
  actual : ℚ
  ts : ℚ
  tol : ℚ

def applyElim (pm : PathManager) (a : ElimCall) : PathManager :=
  elimState pm a.actual a.ts a.tol

/-- A session's sequence of elimination calls applied in order. -/
def runElims (pm : PathManager) (l : List ElimCall) : PathManager :=
  l.foldl applyElim pm

/-! ### Concrete instances used to exercise the theorems -/

def pmA : PathManager := mkPathManager [[100, 110], [100, 100]] [0, 1]

def pmB : PathManager := mkPathManager [[100]] [0]

def pmC : PathManager := mkPathManager [[5, 7]] [0, 1]

def pmF : PathManager := mkPathManager [[1], [2], [3]] [0]

def callsE : List ElimCall := [⟨100, 1, 1 / 100⟩]

def cG2 : GenCfg := ⟨100, 0, 0, 1, 1⟩

def cG3 : GenCfg := ⟨100, 0, 0, 2, 2⟩

def streamZ : ℕ → ℝ := fun _ => 0

def mkFlatBar (t : ℤ) (p : ℚ) : Bar := ⟨t, p, p, p, p, 0⟩

def seriesX : List Bar := [mkFlatBar 0 100, mkFlatBar 3 101]

def barX : Bar := mkFlatBar 5 102

def dataC9 : Timeframe → List Bar := fun tf =>
  match tf with
  | Timeframe.m15 => [mkFlatBar 0 100, mkFlatBar 1 101, mkFlatBar 2 102]
  | _ => []

def dataC9W : Timeframe → List Bar := fun tf =>
  match tf with
  | Timeframe.d1 => [mkFlatBar 0 100, mkFlatBar 1 101, mkFlatBar 2 102]
  | _ => []

/-! ## Theorems -/

/-! ### The nearest-index scan is an argmin over the grid -/

theorem nearestAux_shape (ts : ℚ) (rest : List ℚ) :
    ∀ (i : ℕ) (best : ℕ × ℚ),
      nearestAux ts rest i best = best ∨
        ∃ k, k < rest.length ∧ nearestAux ts rest i best = (i + k, rest.getD k 0) := by
  induction rest with
  | nil => intro i best; exact Or.inl rfl
  | cons t rest ih =>
    intro i best
    rw [nearestAux]
    rcases ih (i + 1) (if |t - ts| ≤ |best.2 - ts| then (i, t) else best) with h | ⟨k, hk, hr⟩
    · rw [h]
      by_cases hc : |t - ts| ≤ |best.2 - ts|
      · exact Or.inr ⟨0, Nat.succ_pos _, by simp [hc]⟩
      · exact Or.inl (by simp [hc])
    · refine Or.inr ⟨k + 1, Nat.succ_lt_succ hk, ?_⟩
      rw [hr]
      have : i + 1 + k = i + (k + 1) := by omega
      simp [this]

theorem nearestAux_min (ts : ℚ) (rest : List ℚ) :
    ∀ (i : ℕ) (best : ℕ × ℚ),
      |(nearestAux ts rest i best).2 - ts| ≤ |best.2 - ts| ∧
        ∀ k, k < rest.length → |(nearestAux ts rest i best).2 - ts| ≤ |rest.getD k 0 - ts| := by
  induction rest with
  | nil =>
    intro i best
    exact ⟨le_refl _, fun k hk => absurd hk (Nat.not_lt_zero k)⟩
  | cons t rest ih =>
    intro i best
    rw [nearestAux]
    by_cases hc : |t - ts| ≤ |best.2 - ts|
    · rw [if_pos hc]
      obtain ⟨h1, h2⟩ := ih (i + 1) (i, t)
      refine ⟨le_trans h1 hc, fun k hk => ?_⟩
      match k with
      | 0 => simpa using h1
      | k + 1 => exact h2 k (Nat.lt_of_succ_lt_succ hk)
    · rw [if_neg hc]
      obtain ⟨h1, h2⟩ := ih (i + 1) best
      refine ⟨h1, fun k hk => ?_⟩
      match k with
      | 0 =>
        have hbt : |best.2 - ts| ≤ |t - ts| := le_of_lt (lt_of_not_le hc)
        simpa using le_trans h1 hbt
      | k + 1 => exact h2 k (Nat.lt_of_succ_lt_succ hk)

/-- On a nonempty grid the scan returns a valid position whose timestamp
minimizes the distance to the query. -/
theorem nearestIdx_spec (T : List ℚ) (ts : ℚ) (hT : T ≠ []) :
    ∃ s, nearestIdx T ts = some s ∧ s < T.length ∧
      ∀ k, k < T.length → |T.getD s 0 - ts| ≤ |T.getD k 0 - ts| := by
  match T with
  | [] => exact absurd rfl hT
  | t :: rest =>
    have hshape := nearestAux_shape ts rest 1 (0, t)
    have hmin := nearestAux_min ts rest 1 (0, t)
    have hval : (nearestAux ts rest 1 (0, t)).1 < (t :: rest).length ∧
        (t :: rest).getD (nearestAux ts rest 1 (0, t)).1 0 = (nearestAux ts rest 1 (0, t)).2 := by
      rcases hshape with h | ⟨k, hk, hr⟩
      · rw [h]; exact ⟨Nat.succ_pos _, rfl⟩
      · rw [hr]
        refine ⟨by simp only [List.length_cons]; omega, ?_⟩
        have h1k : 1 + k = k + 1 := by omega
        simp [h1k]
    refine ⟨(nearestAux ts rest 1 (0, t)).1, rfl, hval.1, ?_⟩
    intro k hk
    rw [hval.2]
    match k with
    | 0 => simpa using hmin.1
    | k + 1 => simpa using hmin.2 k (Nat.lt_of_succ_lt_succ hk)

theorem get_path_at_time_nearest_aux (pm : PathManager) (i : ℕ) (ts : ℚ)
    (hi : i < pm.paths.length)
    (hlen : (pm.paths.getD i []).length = pm.timeIndex.length)
    (hT : pm.timeIndex ≠ []) :
    ∃ s, nearestIdx pm.timeIndex ts = some s ∧ s < pm.timeIndex.length ∧
      (∀ k, k < pm.timeIndex.length →
        |pm.timeIndex.getD s 0 - ts| ≤ |pm.timeIndex.getD k 0 - ts|) ∧
      get_path_at_time pm i ts = some ((pm.paths.getD i []).getD s 0) := by
  obtain ⟨s, hs, hlt, hmin⟩ := nearestIdx_spec pm.timeIndex ts hT
  refine ⟨s, hs, hlt, hmin, ?_⟩
  rw [get_path_at_time, if_pos hi, hs]
  have hslen : s < (pm.paths.getD i []).length := by omega
  show (pm.paths.getD i [])[s]? = some ((pm.paths.getD i []).getD s 0)
  rw [List.getElem?_eq_getElem hslen, List.getD_eq_getElem _ _ hslen]

/-- C5 (amended): for a valid path index, when the path covers the grid and
the grid is nonempty, `get_path_at_time` returns the path's price at a grid
step minimizing the distance to the queried timestamp — for every timestamp,
including timestamps outside the grid by more than one step (they clamp to
the nearest end rather than yielding nothing). -/
theorem get_path_at_time_nearest (pm : PathManager) (i : ℕ) (ts : ℚ)
    (hi : i < pm.paths.length)
    (hlen : (pm.paths.getD i []).length = pm.timeIndex.length)
    (hT : pm.timeIndex ≠ []) :
    ∃ s, nearestIdx pm.timeIndex ts = some s ∧ s < pm.timeIndex.length ∧
      (∀ k, k < pm.timeIndex.length →
        |pm.timeIndex.getD s 0 - ts| ≤ |pm.timeIndex.getD k 0 - ts|) ∧
      get_path_at_time pm i ts = some ((pm.paths.getD i []).getD s 0) :=
  get_path_at_time_nearest_aux pm i ts hi hlen hT

/-- C5 counterexample: in the population `pmC` the grid is `[0, 1]`, so the
timestamp `100` is outside the grid by far more than one step, yet the query
returns the last grid step's price instead of nothing. -/
theorem get_path_at_time_out_of_range_counterexample :
    get_path_at_time pmC 0 100 = some 7 := by
  norm_num [pmC, mkPathManager, get_path_at_time, nearestIdx, nearestAux]
  rfl

/-- C5 witness. -/
theorem get_path_at_time_nearest_witness :
    0 < pmC.paths.length ∧ (pmC.paths.getD 0 []).length = pmC.timeIndex.length ∧
      pmC.timeIndex ≠ [] ∧
      (∃ s, nearestIdx pmC.timeIndex (1 / 2) = some s ∧ s < pmC.timeIndex.length ∧
        (∀ k, k < pmC.timeIndex.length →
          |pmC.timeIndex.getD s 0 - 1 / 2| ≤ |pmC.timeIndex.getD k 0 - 1 / 2|) ∧
        get_path_at_time pmC 0 (1 / 2) = some ((pmC.paths.getD 0 []).getD s 0)) :=
  ⟨by decide, by decide, by decide,
    get_path_at_time_nearest pmC 0 (1 / 2) (by decide) (by decide) (by decide)⟩

/-! ### Elimination -/

theorem removedSet_eq (pm : PathManager) (actual ts tol : ℚ) (s : ℕ)
    (hval : ∀ i ∈ pm.active,
      get_path_at_time pm i ts = some ((pm.paths.getD i []).getD s 0)) :
    removedSet pm actual ts tol
      = pm.active.filter
          (fun i => tol < |(pm.paths.getD i []).getD s 0 - actual| / actual) := by
  apply Finset.filter_congr
  intro i hi
  rw [shouldRemove, hval i hi]
  simp

/-- C1: with a positive observed price, `eliminate_paths` removes from the
live set exactly the live paths whose price at the grid step nearest `ts`
deviates relatively by more than the tolerance, stamps each removed path's
elimination metadata with `ts`, and returns the number removed; a live path
whose price equals the observed price is kept for every `tolerance ≥ 0`. -/
theorem eliminate_paths_spec (pm : PathManager) (actual ts tol : ℚ)
    (hwf₁ : ∀ i ∈ pm.active, i < pm.paths.length)
    (hwf₂ : ∀ p ∈ pm.paths, p.length = pm.timeIndex.length)
    (hT : pm.timeIndex ≠ [])
    (ha : 0 < actual) :
    ∃ s pm₁,
      nearestIdx pm.timeIndex ts = some s ∧
      (∀ k, k < pm.timeIndex.length →
        |pm.timeIndex.getD s 0 - ts| ≤ |pm.timeIndex.getD k 0 - ts|) ∧
      eliminate_paths pm actual ts tol =
        .ok (pm₁,
          (pm.active.filter
            (fun i => tol < |(pm.paths.getD i []).getD s 0 - actual| / actual)).card) ∧
      pm₁.active = pm.active.filter
        (fun i => ¬ tol < |(pm.paths.getD i []).getD s 0 - actual| / actual) ∧
      (∀ i ∈ pm.active, tol < |(pm.paths.getD i []).getD s 0 - actual| / actual →
        pm₁.elimAt i = some ts) ∧
      (∀ i ∈ pm.active, 0 ≤ tol → (pm.paths.getD i []).getD s 0 = actual →
        i ∈ pm₁.active) := by
  obtain ⟨s, hs, hlt, hmin⟩ := nearestIdx_spec pm.timeIndex ts hT
  have hval : ∀ i ∈ pm.active,
      get_path_at_time pm i ts = some ((pm.paths.getD i []).getD s 0) := by
    intro i hi
    have hi' := hwf₁ i hi
    have hmem : pm.paths.getD i [] ∈ pm.paths := by
      rw [List.getD_eq_getElem _ _ hi']
      exact List.getElem_mem hi'
    obtain ⟨s', hs', _, _, heq⟩ := get_path_at_time_nearest_aux pm i ts hi' (hwf₂ _ hmem) hT
    have : s' = s := Option.some.inj (hs'.symm.trans hs)
    rw [heq, this]
  have hR := removedSet_eq pm actual ts tol s hval
  have hcond : ¬ (actual = 0 ∧ ∃ i ∈ pm.active, (get_path_at_time pm i ts).isSome) :=
    fun h => absurd h.1 (ne_of_gt ha)
  refine ⟨s,
    ⟨pm.paths, pm.timeIndex, pm.active \ removedSet pm actual ts tol,
      fun i => if i ∈ removedSet pm actual ts tol then some ts else pm.elimAt i⟩,
    hs, hmin, ?_, ?_, ?_, ?_⟩
  · rw [eliminate_paths, if_neg hcond, hR]
  · show pm.active \ removedSet pm actual ts tol = _
    rw [hR, Finset.filter_not]
  · intro i hi hbad
    show (if i ∈ removedSet pm actual ts tol then some ts else pm.elimAt i) = some ts
    rw [if_pos]
    rw [hR]
    exact Finset.mem_filter.mpr ⟨hi, hbad⟩
  · intro i hi htol hpeq
    show i ∈ pm.active \ removedSet pm actual ts tol
    rw [hR, ← Finset.filter_not]
    refine Finset.mem_filter.mpr ⟨hi, ?_⟩
    rw [hpeq]
    simp [not_lt, htol]

/-- C1 witness. -/
theorem eliminate_paths_spec_witness :
    (∀ i ∈ pmA.active, i < pmA.paths.length) ∧
      (∀ p ∈ pmA.paths, p.length = pmA.timeIndex.length) ∧
      pmA.timeIndex ≠ [] ∧ (0 : ℚ) < 100 ∧
      (∃ s pm₁,
        nearestIdx pmA.timeIndex 1 = some s ∧
        (∀ k, k < pmA.timeIndex.length →
          |pmA.timeIndex.getD s 0 - 1| ≤ |pmA.timeIndex.getD k 0 - 1|) ∧
        eliminate_paths pmA 100 1 (1 / 100) =
          .ok (pm₁,
            (pmA.active.filter
              (fun i => 1 / 100 < |(pmA.paths.getD i []).getD s 0 - 100| / 100)).card) ∧
        pm₁.active = pmA.active.filter
          (fun i => ¬ 1 / 100 < |(pmA.paths.getD i []).getD s 0 - 100| / 100) ∧
        (∀ i ∈ pmA.active, 1 / 100 < |(pmA.paths.getD i []).getD s 0 - 100| / 100 →
          pm₁.elimAt i = some 1) ∧
        (∀ i ∈ pmA.active, (0 : ℚ) ≤ 1 / 100 → (pmA.paths.getD i []).getD s 0 = 100 →
          i ∈ pm₁.active)) :=
  ⟨by decide, by decide, by decide, by norm_num,
    eliminate_paths_spec pmA 100 1 (1 / 100) (by decide) (by decide) (by decide) (by norm_num)⟩

/-- C4 counterexample: on the one-path population `pmB`, a call of
`eliminate` with the non-positive observed price `-1` returns normally
(count `0`) instead of raising, and a query with the out-of-range path index
`5` returns nothing instead of raising. -/
theorem invalid_input_counterexample :
    exceptIsOk (eliminate_paths pmB (-1) 0 (1 / 100)) = true ∧
      get_path_at_time pmB 5 0 = none := by
  constructor
  · rw [eliminate_paths, if_neg]
    · rfl
    · intro h
      exact absurd h.1 (by norm_num)
  · decide

/-- C4 (amended): `eliminate` raises (a division-by-zero error that
propagates) only when the observed price is exactly `0` and some live path
has a value at the timestamp; with a negative observed price it returns
normally, and a query with an out-of-range path index returns nothing rather
than raising. -/
theorem invalid_input_behavior (pm : PathManager) (ts tol : ℚ) (i : ℕ)
    (hlive : ∃ j ∈ pm.active, (get_path_at_time pm j ts).isSome)
    (hi : pm.paths.length ≤ i) :
    eliminate_paths pm 0 ts tol = .error () ∧
      get_path_at_time pm i ts = none ∧
      ∀ a : ℚ, a < 0 → exceptIsOk (eliminate_paths pm a ts tol) = true := by
  refine ⟨?_, ?_, ?_⟩
  · rw [eliminate_paths, if_pos ⟨rfl, hlive⟩]
  · rw [get_path_at_time, if_neg (not_lt.mpr hi)]
  · intro a hneg
    rw [eliminate_paths, if_neg (fun h => absurd h.1 (ne_of_lt hneg))]
    rfl

/-- C4 witness. -/
theorem invalid_input_behavior_witness :
    (∃ j ∈ pmB.active, (get_path_at_time pmB j 0).isSome) ∧
      pmB.paths.length ≤ 5 ∧
      (eliminate_paths pmB 0 0 (1 / 100) = .error () ∧
        get_path_at_time pmB 5 0 = none ∧
        ∀ a : ℚ, a < 0 → exceptIsOk (eliminate_paths pmB a 0 (1 / 100)) = true) :=
  ⟨by decide, by decide, invalid_input_behavior pmB 0 (1 / 100) 5 (by decide) (by decide)⟩

/-- C6: a second `eliminate` call with the same positive observed price,
timestamp and tolerance removes nothing — it returns `0` and leaves the live
set unchanged. -/
theorem eliminate_paths_idempotent (pm pm₁ : PathManager) (actual ts tol : ℚ) (k : ℕ)
    (ha : 0 < actual)
    (h1 : eliminate_paths pm actual ts tol = .ok (pm₁, k)) :
    ∃ pm₂, eliminate_paths pm₁ actual ts tol = .ok (pm₂, 0) ∧ pm₂.active = pm₁.active := by
  have hcond : ¬ (actual = 0 ∧ ∃ i ∈ pm.active, (get_path_at_time pm i ts).isSome) :=
    fun h => absurd h.1 (ne_of_gt ha)
  rw [eliminate_paths, if_neg hcond] at h1
  simp only [Except.ok.injEq, Prod.mk.injEq] at h1
  obtain ⟨hpm, hk⟩ := h1
  have hsr : ∀ j, shouldRemove pm₁ actual ts tol j = shouldRemove pm actual ts tol j := by
    intro j
    rw [← hpm]
    rfl
  have hR2 : removedSet pm₁ actual ts tol = ∅ := by
    rw [removedSet]
    apply Finset.filter_false_of_mem
    intro j hj
    rw [← hpm] at hj
    have hj' : j ∈ pm.active \ removedSet pm actual ts tol := hj
    rw [hsr j]
    intro hbad
    have : j ∈ removedSet pm actual ts tol :=
      Finset.mem_filter.mpr ⟨(Finset.mem_sdiff.mp hj').1, hbad⟩
    exact (Finset.mem_sdiff.mp hj').2 this
  have hcond₁ : ¬ (actual = 0 ∧ ∃ i ∈ pm₁.active, (get_path_at_time pm₁ i ts).isSome) :=
    fun h => absurd h.1 (ne_of_gt ha)
  refine ⟨⟨pm₁.paths, pm₁.timeIndex, pm₁.active \ removedSet pm₁ actual ts tol,
    fun i => if i ∈ removedSet pm₁ actual ts tol then some ts else pm₁.elimAt i⟩, ?_, ?_⟩
  · rw [eliminate_paths, if_neg hcond₁, hR2]
    simp
  · show pm₁.active \ removedSet pm₁ actual ts tol = pm₁.active
    rw [hR2, Finset.sdiff_empty]

/-- C6 witness. -/
theorem eliminate_paths_idempotent_witness :
    (0 : ℚ) < 100 ∧
      (∃ pm₂, eliminate_paths (elimState pmA 100 1 (1 / 100)) 100 1 (1 / 100)
          = .ok (pm₂, 0) ∧
        pm₂.active = (elimState pmA 100 1 (1 / 100)).active) :=
  ⟨by norm_num,
    eliminate_paths_idempotent pmA (elimState pmA 100 1 (1 / 100)) 100 1 (1 / 100)
      (elimCount pmA 100 1 (1 / 100)) (by norm_num) rfl⟩

/-! ### Monotone shrinkage over a session -/

theorem eliminate_ok_active (pm pm' : PathManager) (actual ts tol : ℚ) (k : ℕ)
    (h : eliminate_paths pm actual ts tol = .ok (pm', k)) :
    pm'.active = pm.active \ removedSet pm actual ts tol := by
  rw [eliminate_paths] at h
  by_cases hc : actual = 0 ∧ ∃ i ∈ pm.active, (get_path_at_time pm i ts).isSome
  · rw [if_pos hc] at h
    exact absurd h (by simp)
  · rw [if_neg hc] at h
    simp only [Except.ok.injEq, Prod.mk.injEq] at h
    rw [← h.1]

theorem applyElim_active_subset (pm : PathManager) (a : ElimCall) :
    (applyElim pm a).active ⊆ pm.active := by
  rw [applyElim, elimState]
  cases h : eliminate_paths pm a.actual a.ts a.tol with
  | error e => exact subset_refl _
  | ok p =>
    show p.1.active ⊆ pm.active
    rw [eliminate_ok_active pm p.1 a.actual a.ts a.tol p.2 (by rw [h])]
    exact Finset.sdiff_subset

theorem runElims_active_subset (l : List ElimCall) :
    ∀ pm : PathManager, (runElims pm l).active ⊆ pm.active := by
  induction l with
  | nil => intro pm; exact subset_refl _
  | cons a l ih =>
    intro pm
    exact subset_trans (ih (applyElim pm a)) (applyElim_active_subset pm a)

/-- C7: over any session (any sequence of elimination calls) the live set
only shrinks — the final live set is a subset of the initial one and an
index outside the live set never re-enters it — and the reported statistics
always satisfy `num_active + num_eliminated = num_total` and
`survival_rate = num_active / num_total`. -/
theorem live_set_monotone (pm : PathManager) (l : List ElimCall) :
    (runElims pm l).active ⊆ pm.active ∧
      (∀ i, i ∉ pm.active → i ∉ (runElims pm l).active) ∧
      (get_statistics (runElims pm l)).num_active
          + (get_statistics (runElims pm l)).num_eliminated
        = (get_statistics (runElims pm l)).num_total ∧
      (get_statistics (runElims pm l)).survival_rate
        = ((get_statistics (runElims pm l)).num_active : ℚ)
            / ((get_statistics (runElims pm l)).num_total : ℚ) := by
  refine ⟨runElims_active_subset l pm,
    fun i hi hmem => hi (runElims_active_subset l pm hmem), ?_, ?_⟩
  · rw [get_statistics]
    ring
  · rw [get_statistics]
    by_cases hn : 0 < (runElims pm l).paths.length
    · rw [if_pos hn]
      push_cast
      rfl
    · rw [if_neg hn]
      have h0 : (runElims pm l).paths.length = 0 := by omega
      rw [h0]
      norm_num

/-- C7 witness. -/
theorem live_set_monotone_witness :
    (runElims pmA callsE).active ⊆ pmA.active ∧
      (∀ i, i ∉ pmA.active → i ∉ (runElims pmA callsE).active) ∧
      (get_statistics (runElims pmA callsE)).num_active
          + (get_statistics (runElims pmA callsE)).num_eliminated
        = (get_statistics (runElims pmA callsE)).num_total ∧
      (get_statistics (runElims pmA callsE)).survival_rate
        = ((get_statistics (runElims pmA callsE)).num_active : ℚ)
            / ((get_statistics (runElims pmA callsE)).num_total : ℚ) :=
  live_set_monotone pmA callsE

/-! ### Path generation -/

theorem pathTail_length (mu sigma dt : ℝ) :
    ∀ (l : List ℝ) (p : ℝ), (pathTail mu sigma dt p l).length = l.length := by
  intro l
  induction l with
  | nil => intro p; rfl
  | cons dw rest ih => intro p; simp [pathTail, ih]

theorem generate_single_path_length (S0 mu sigma dt : ℝ) (l : List ℝ) :
    (generate_single_path S0 mu sigma dt l).length = l.length + 1 := by
  rw [generate_single_path]
  simp [pathTail_length]

theorem generate_single_path_head (S0 mu sigma dt : ℝ) (l : List ℝ) :
    (generate_single_path S0 mu sigma dt l).getD 0 0 = S0 := rfl

theorem generate_single_path_cons (S0 mu sigma dt dw : ℝ) (rest : List ℝ) :
    generate_single_path S0 mu sigma dt (dw :: rest)
      = S0 :: generate_single_path (gbmNext mu sigma dt S0 dw) mu sigma dt rest := rfl

theorem generate_single_path_step (mu sigma dt : ℝ) :
    ∀ (l : List ℝ) (S0 : ℝ) (s : ℕ), s < l.length →
      (generate_single_path S0 mu sigma dt l).getD (s + 1) 0
        = gbmNext mu sigma dt ((generate_single_path S0 mu sigma dt l).getD s 0)
            (l.getD s 0) := by
  intro l
  induction l with
  | nil => intro S0 s hs; exact absurd hs (Nat.not_lt_zero s)
  | cons dw rest ih =>
    intro S0 s hs
    rw [generate_single_path_cons]
    match s with
    | 0 =>
      simp only [List.getD_cons_succ, List.getD_cons_zero]
      rw [generate_single_path_head]
    | s + 1 =>
      have hs' : s < rest.length := by
        simp only [List.length_cons] at hs
        omega
      simp only [List.getD_cons_succ]
      exact ih (gbmNext mu sigma dt S0 dw) s hs'

theorem generate_single_path_pos (mu sigma dt : ℝ) :
    ∀ (l : List ℝ) (S0 : ℝ), 0 < S0 →
      ∀ x ∈ generate_single_path S0 mu sigma dt l, 0 < x := by
  intro l
  induction l with
  | nil =>
    intro S0 h x hx
    rw [generate_single_path] at hx
    simp only [pathTail, List.mem_singleton] at hx
    rwa [hx]
  | cons dw rest ih =>
    intro S0 h x hx
    rw [generate_single_path_cons] at hx
    rcases List.mem_cons.mp hx with hx | hx
    · rwa [hx]
    · exact ih (gbmNext mu sigma dt S0 dw) (mul_pos h (Real.exp_pos _)) x hx

theorem generate_single_path_getD_pos (mu sigma dt : ℝ) (l : List ℝ) (S0 : ℝ)
    (h : 0 < S0) (s : ℕ) (hs : s ≤ l.length) :
    0 < (generate_single_path S0 mu sigma dt l).getD s 0 := by
  have hlen : s < (generate_single_path S0 mu sigma dt l).length := by
    rw [generate_single_path_length]
    omega
  rw [List.getD_eq_getElem _ _ hlen]
  exact generate_single_path_pos mu sigma dt l S0 h _ (List.getElem_mem hlen)

/-- The generation loop: `n` paths, the RNG advanced by `n * H` draws, and
path `j` built from the draws at positions `pos + j*H .. pos + j*H + H - 1`
of the stream — draws are consumed in canonical order. -/
theorem genPathsAux_spec (c : GenCfg) :
    ∀ (n : ℕ) (g : RNG),
      (genPathsAux c n g).1.length = n ∧
        (genPathsAux c n g).2 = ⟨g.stream, g.pos + n * c.H⟩ ∧
        ∀ j, j < n →
          (genPathsAux c n g).1.getD j []
            = generate_single_path c.S0 c.mu c.sigma dtv
                ((List.range c.H).map
                  (fun k => g.stream (g.pos + j * c.H + k) * Real.sqrt dtv)) := by
  intro n
  induction n with
  | zero =>
    intro g
    refine ⟨rfl, ?_, fun j hj => absurd hj (Nat.not_lt_zero j)⟩
    cases g with
    | mk st p => simp [genPathsAux]
  | succ n ih =>
    intro g
    obtain ⟨ihlen, ihrng, ihpath⟩ := ih ⟨g.stream, g.pos + c.H⟩
    have hunfold : genPathsAux c (n + 1) g
        = ((genSingle c g).1 :: (genPathsAux c n ⟨g.stream, g.pos + c.H⟩).1,
           (genPathsAux c n ⟨g.stream, g.pos + c.H⟩).2) := rfl
    rw [hunfold]
    refine ⟨by simp [ihlen], ?_, ?_⟩
    · show (genPathsAux c n ⟨g.stream, g.pos + c.H⟩).2 = _
      rw [ihrng]
      congr 1
      ring
    · intro j hj
      match j with
      | 0 =>
        show (genSingle c g).1 = _
        rw [genSingle, drawMany]
        simp only [List.map_map]
        apply congrArg (generate_single_path c.S0 c.mu c.sigma dtv)
        apply List.map_congr_left
        intro k _
        show g.stream (g.pos + k) * Real.sqrt dtv
          = g.stream (g.pos + 0 * c.H + k) * Real.sqrt dtv
        congr 2
        ring
      | j + 1 =>
        simp only [List.getD_cons_succ]
        rw [ihpath j (Nat.lt_of_succ_lt_succ hj)]
        apply congrArg (generate_single_path c.S0 c.mu c.sigma dtv)
        apply List.map_congr_left
        intro k _
        show g.stream (g.pos + c.H + j * c.H + k) * Real.sqrt dtv
          = g.stream (g.pos + (j + 1) * c.H + k) * Real.sqrt dtv
        congr 2
        ring

theorem generate_paths_canonical (c : GenCfg) (stream : ℕ → ℝ) (start : ℤ) :
    (generate_paths c stream start).1.length = c.N ∧
      (generate_paths c stream start).2 = timeGrid start c.H ∧
      ∀ j, j < c.N →
        (generate_paths c stream start).1.getD j []
          = generate_single_path c.S0 c.mu c.sigma dtv
              ((List.range c.H).map (fun k => stream (j * c.H + k) * Real.sqrt dtv)) := by
  obtain ⟨hlen, -, hpath⟩ := genPathsAux_spec c c.N ⟨stream, 0⟩
  refine ⟨hlen, rfl, ?_⟩
  intro j hj
  have h := hpath j hj
  simp only [Nat.zero_add] at h
  exact h

/-- C3: path generation is a pure function of the seeded draw stream — two
runs from the same stream produce identical matrices and time grids — and
the draws are consumed in canonical order: path `j` is built from draws
`j*H .. j*H + H - 1`, i.e. all draws of path 0 first, then path 1, etc. -/
theorem generate_paths_deterministic (c : GenCfg) (stream₁ stream₂ : ℕ → ℝ) (start : ℤ)
    (hseed : stream₁ = stream₂) :
    generate_paths c stream₁ start = generate_paths c stream₂ start ∧
      (generate_paths c stream₁ start).1.length = c.N ∧
      (generate_paths c stream₁ start).2 = timeGrid start c.H ∧
      ∀ j, j < c.N →
        (generate_paths c stream₁ start).1.getD j []
          = generate_single_path c.S0 c.mu c.sigma dtv
              ((List.range c.H).map (fun k => stream₁ (j * c.H + k) * Real.sqrt dtv)) := by
  subst hseed
  obtain ⟨hlen, hgrid, hpath⟩ := generate_paths_canonical c stream₁ start
  exact ⟨rfl, hlen, hgrid, hpath⟩

/-- C3 witness. -/
theorem generate_paths_deterministic_witness :
    streamZ = streamZ ∧
      generate_paths cG3 streamZ 0 = generate_paths cG3 streamZ 0 ∧
      (generate_paths cG3 streamZ 0).1.length = cG3.N ∧
      (generate_paths cG3 streamZ 0).1.getD 0 []
        = generate_single_path cG3.S0 cG3.mu cG3.sigma dtv
            ((List.range cG3.H).map (fun k => streamZ (0 * cG3.H + k) * Real.sqrt dtv)) :=
  ⟨rfl, (generate_paths_deterministic cG3 streamZ streamZ 0 rfl).1,
    (generate_paths_deterministic cG3 streamZ streamZ 0 rfl).2.1,
    (generate_paths_deterministic cG3 streamZ streamZ 0 rfl).2.2.2 0 (by decide)⟩

/-- C2: with `S₀ > 0`, `σ ≥ 0`, `H ≥ 1`, `N ≥ 1`, the generator produces `N`
paths of length `H + 1` on a grid of `H + 1` minutes, each starting at `S₀`,
each following `S_s = S_{s-1} * exp((µ - 0.5σ²)·dt + σ·ε_s·√dt)` with
`dt = 1/(252·6.5·60)`, and consequently every entry of every path is
strictly positive. -/
theorem generate_paths_gbm (c : GenCfg) (stream : ℕ → ℝ) (start : ℤ)
    (hS0 : 0 < c.S0) (hsig : 0 ≤ c.sigma) (hH : 1 ≤ c.H) (hN : 1 ≤ c.N) :
    dtv = 1 / (252 * 6.5 * 60) ∧
      (generate_paths c stream start).1.length = c.N ∧
      (generate_paths c stream start).2.length = c.H + 1 ∧
      ∀ j, j < c.N →
        ((generate_paths c stream start).1.getD j []).length = c.H + 1 ∧
        ((generate_paths c stream start).1.getD j []).getD 0 0 = c.S0 ∧
        (∀ s, s < c.H →
          ((generate_paths c stream start).1.getD j []).getD (s + 1) 0
            = ((generate_paths c stream start).1.getD j []).getD s 0
                * Real.exp ((c.mu - 0.5 * c.sigma ^ 2) * dtv
                    + c.sigma * (stream (j * c.H + s) * Real.sqrt dtv))) ∧
        (∀ s, s ≤ c.H → 0 < ((generate_paths c stream start).1.getD j []).getD s 0) := by
  obtain ⟨hlen, -, hpath⟩ := generate_paths_canonical c stream start
  have hgrid : (generate_paths c stream start).2.length = c.H + 1 := by
    show (timeGrid start c.H).length = c.H + 1
    rw [timeGrid, List.length_map, List.length_range]
  refine ⟨rfl, hlen, hgrid, ?_⟩
  intro j hj
  rw [hpath j hj]
  have hdlen : ((List.range c.H).map
      (fun k => stream (j * c.H + k) * Real.sqrt dtv)).length = c.H := by
    simp
  refine ⟨?_, generate_single_path_head _ _ _ _ _, ?_, ?_⟩
  · rw [generate_single_path_length, hdlen]
  · intro s hs
    have hstep := generate_single_path_step c.mu c.sigma dtv
      ((List.range c.H).map (fun k => stream (j * c.H + k) * Real.sqrt dtv))
      c.S0 s (by rw [hdlen]; exact hs)
    rw [hstep, gbmNext]
    have hget : ((List.range c.H).map
        (fun k => stream (j * c.H + k) * Real.sqrt dtv)).getD s 0
          = stream (j * c.H + s) * Real.sqrt dtv := by
      rw [List.getD_eq_getElem _ _ (by rw [hdlen]; exact hs)]
      simp
    rw [hget]
  · intro s hs
    exact generate_single_path_getD_pos c.mu c.sigma dtv _ c.S0 hS0 s
      (by rw [hdlen]; exact hs)

/-! ### Zone detection -/

theorem insertZoneDesc_perm (z : Zone) (l : List Zone) :
    (insertZoneDesc z l).Perm (z :: l) := by
  induction l with
  | nil => exact List.Perm.refl _
  | cons w ws ih =>
    rw [insertZoneDesc]
    by_cases hc : z.probability < w.probability
    · rw [if_pos hc]
      exact (ih.cons w).trans (List.Perm.swap z w ws)
    · rw [if_neg hc]

theorem sortZonesDesc_perm (l : List Zone) : (sortZonesDesc l).Perm l := by
  induction l with
  | nil => exact List.Perm.refl _
  | cons x xs ih =>
    show (insertZoneDesc x (sortZonesDesc xs)).Perm (x :: xs)
    exact (insertZoneDesc_perm x (sortZonesDesc xs)).trans (ih.cons x)

theorem insertZoneDesc_pairwise (z : Zone) (l : List Zone)
    (hl : l.Pairwise zoneOrder)
    (hz : ∀ w ∈ l, z.price_level < w.price_level) :
    (insertZoneDesc z l).Pairwise zoneOrder := by
  induction l with
  | nil => exact List.pairwise_singleton _ _
  | cons w ws ih =>
    rw [List.pairwise_cons] at hl
    obtain ⟨hw, hws⟩ := hl
    rw [insertZoneDesc]
    by_cases hc : z.probability < w.probability
    · rw [if_pos hc, List.pairwise_cons]
      refine ⟨?_, ih hws (fun u hu => hz u (List.mem_cons_of_mem w hu))⟩
      intro u hu
      rcases List.mem_cons.mp ((insertZoneDesc_perm z ws).mem_iff.mp hu) with rfl | hu'
      · exact Or.inl hc
      · exact hw u hu'
    · rw [if_neg hc, List.pairwise_cons]
      refine ⟨?_, List.pairwise_cons.mpr ⟨hw, hws⟩⟩
      intro u hu
      rcases List.mem_cons.mp hu with rfl | hu'
      · rcases lt_or_eq_of_le (not_lt.mp hc) with hlt | heq
        · exact Or.inl hlt
        · exact Or.inr ⟨heq, hz u (List.mem_cons_self u ws)⟩
      · rcases hw u hu' with hlt | ⟨heq, -⟩
        · exact Or.inl (lt_of_lt_of_le hlt (not_lt.mp hc))
        · rcases lt_or_eq_of_le (not_lt.mp hc) with h2 | h2
          · exact Or.inl (by rw [heq]; exact h2)
          · exact Or.inr ⟨heq.trans h2, hz u (List.mem_cons_of_mem w hu')⟩

theorem sortZonesDesc_pairwise (l : List Zone)
    (hl : l.Pairwise (fun a b => a.price_level < b.price_level)) :
    (sortZonesDesc l).Pairwise zoneOrder := by
  induction l with
  | nil => exact List.Pairwise.nil
  | cons x xs ih =>
    rw [List.pairwise_cons] at hl
    show (insertZoneDesc x (sortZonesDesc xs)).Pairwise zoneOrder
    apply insertZoneDesc_pairwise
    · exact ih hl.2
    · intro w hw
      exact hl.1 w ((sortZonesDesc_perm xs).mem_iff.mp hw)

theorem foldl_min_le_init (xs : List ℚ) : ∀ x : ℚ, xs.foldl min x ≤ x := by
  induction xs with
  | nil => intro x; exact le_refl x
  | cons y ys ih =>
    intro x
    exact le_trans (ih (min x y)) (min_le_left x y)

theorem init_le_foldl_max (xs : List ℚ) : ∀ x : ℚ, x ≤ xs.foldl max x := by
  induction xs with
  | nil => intro x; exact le_refl x
  | cons y ys ih =>
    intro x
    exact le_trans (le_max_left x y) (ih (max x y))

theorem histRange_lt (prices : List ℚ) (hne : prices ≠ []) :
    (histRange prices).1 < (histRange prices).2 := by
  match prices with
  | [] => exact absurd rfl hne
  | x :: xs =>
    rw [histRange]
    by_cases h : qMin (x :: xs) = qMax (x :: xs)
    · rw [if_pos h, h]
      show qMax (x :: xs) - 1 / 2 < qMax (x :: xs) + 1 / 2
      linarith
    · rw [if_neg h]
      exact lt_of_le_of_ne
        (le_trans (foldl_min_le_init xs x) (init_le_foldl_max xs x)) h

theorem binEdge_strictMono (lo hi : ℚ) (B : ℕ) (hlo : lo < hi) (hB : 0 < B) :
    ∀ i j : ℕ, i < j → binEdge lo hi B i < binEdge lo hi B j := by
  intro i j hij
  rw [binEdge, binEdge]
  have hw : (0 : ℚ) < (hi - lo) / (B : ℚ) :=
    div_pos (sub_pos.mpr hlo) (by exact_mod_cast hB)
  have hij' : (i : ℚ) < (j : ℚ) := by exact_mod_cast hij
  have := mul_lt_mul_of_pos_right hij' hw
  rw [mul_div_assoc, mul_div_assoc]
  linarith

theorem mkZone_price_level (pm : PathManager) (ts : ℚ) (prices : List ℚ)
    (lo hi : ℚ) (B i : ℕ) :
    (mkZone pm ts prices lo hi B i).price_level
      = (binEdge lo hi B i + binEdge lo hi B (i + 1)) / 2 := rfl

theorem qualifyingZones_pairwise (pm : PathManager) (ts : ℚ) (B minPaths : ℕ)
    (hB : 1 ≤ B) (hne : get_all_paths_at_time pm ts ≠ []) :
    (qualifyingZones pm ts B minPaths).Pairwise
      (fun a b => a.price_level < b.price_level) := by
  rw [qualifyingZones]
  have hlo := histRange_lt (get_all_paths_at_time pm ts) hne
  apply List.Pairwise.map
  · intro i j hij
    rw [mkZone_price_level, mkZone_price_level]
    have h1 := binEdge_strictMono (histRange (get_all_paths_at_time pm ts)).1
      (histRange (get_all_paths_at_time pm ts)).2 B hlo (by omega) i j hij
    have h2 := binEdge_strictMono (histRange (get_all_paths_at_time pm ts)).1
      (histRange (get_all_paths_at_time pm ts)).2 B hlo (by omega) (i + 1) (j + 1)
      (by omega)
    linarith
  · exact (List.pairwise_lt_range B).filter _

/-- C8: `detect_zones` returns the empty list when fewer than `min_paths`
live prices are sampled; otherwise its output is exactly (a permutation of)
one zone per histogram bin passing the `count ≥ min_paths` and
`count ≥ 0.3·max(hist)` test, each zone carrying
`probability = count / #prices`, and the output is ordered by descending
probability with ties broken by smaller price level first. -/
theorem detect_zones_spec (pm : PathManager) (ts : ℚ) (B minPaths : ℕ)
    (hB : 1 ≤ B) (hmp : 1 ≤ minPaths) :
    ((get_all_paths_at_time pm ts).length < minPaths →
        detect_zones pm ts B minPaths = []) ∧
      (minPaths ≤ (get_all_paths_at_time pm ts).length →
        (detect_zones pm ts B minPaths).Perm (qualifyingZones pm ts B minPaths)) ∧
      (∀ z ∈ detect_zones pm ts B minPaths, ∃ i, i < B ∧
        binQualifies (get_all_paths_at_time pm ts)
            (histRange (get_all_paths_at_time pm ts)).1
            (histRange (get_all_paths_at_time pm ts)).2 B minPaths i = true ∧
        z = mkZone pm ts (get_all_paths_at_time pm ts)
            (histRange (get_all_paths_at_time pm ts)).1
            (histRange (get_all_paths_at_time pm ts)).2 B i ∧
        z.probability
          = (binCount (get_all_paths_at_time pm ts)
                (histRange (get_all_paths_at_time pm ts)).1
                (histRange (get_all_paths_at_time pm ts)).2 B i : ℚ)
              / ((get_all_paths_at_time pm ts).length : ℚ)) ∧
      (minPaths ≤ (get_all_paths_at_time pm ts).length →
        ∀ i, i < B →
          binQualifies (get_all_paths_at_time pm ts)
              (histRange (get_all_paths_at_time pm ts)).1
              (histRange (get_all_paths_at_time pm ts)).2 B minPaths i = true →
          mkZone pm ts (get_all_paths_at_time pm ts)
              (histRange (get_all_paths_at_time pm ts)).1
              (histRange (get_all_paths_at_time pm ts)).2 B i
            ∈ detect_zones pm ts B minPaths) ∧
      (detect_zones pm ts B minPaths).Pairwise zoneOrder := by
  by_cases hlen : (get_all_paths_at_time pm ts).length < minPaths
  · have hdz : detect_zones pm ts B minPaths = [] := by
      rw [detect_zones, if_pos hlen]
    refine ⟨fun _ => hdz, fun h => absurd hlen (by omega), ?_, ?_, ?_⟩
    · intro z hz
      rw [hdz] at hz
      exact absurd hz (List.not_mem_nil z)
    · intro h
      exact absurd hlen (by omega)
    · rw [hdz]
      exact List.Pairwise.nil
  · have hdz : detect_zones pm ts B minPaths
        = sortZonesDesc (qualifyingZones pm ts B minPaths) := by
      rw [detect_zones, if_neg hlen]
    have hne : get_all_paths_at_time pm ts ≠ [] := by
      intro h
      rw [h] at hlen
      simp at hlen
      omega
    refine ⟨fun h => absurd h (by omega), fun _ => ?_, ?_, fun _ => ?_, ?_⟩
    · rw [hdz]
      exact sortZonesDesc_perm _
    · intro z hz
      rw [hdz] at hz
      have hz' : z ∈ qualifyingZones pm ts B minPaths :=
        (sortZonesDesc_perm _).mem_iff.mp hz
      rw [qualifyingZones] at hz'
      obtain ⟨i, hi, hzi⟩ := List.mem_map.mp hz'
      obtain ⟨hir, hiq⟩ := List.mem_filter.mp hi
      refine ⟨i, List.mem_range.mp hir, of_decide_eq_true hiq, hzi.symm, ?_⟩
      rw [← hzi]
      rfl
    · intro i hiB hiq
      rw [hdz]
      apply (sortZonesDesc_perm _).mem_iff.mpr
      rw [qualifyingZones]
      apply List.mem_map.mpr
      exact ⟨i, List.mem_filter.mpr ⟨List.mem_range.mpr hiB, decide_eq_true hiq⟩, rfl⟩
    · rw [hdz]
      exact sortZonesDesc_pairwise _ (qualifyingZones_pairwise pm ts B minPaths hB hne)

/-- C8 witness. -/
theorem detect_zones_spec_witness :
    1 ≤ 3 ∧ 1 ≤ 1 ∧
      (1 ≤ (get_all_paths_at_time pmF 0).length →
        (detect_zones pmF 0 3 1).Perm (qualifyingZones pmF 0 3 1)) ∧
      (detect_zones pmF 0 3 1).Pairwise zoneOrder :=
  ⟨by decide, by decide, (detect_zones_spec pmF 0 3 1 (by decide) (by decide)).2.1,
    (detect_zones_spec pmF 0 3 1 (by decide) (by decide)).2.2.2.2⟩

/-- C2 witness. -/
theorem generate_paths_gbm_witness :
    0 < cG2.S0 ∧ 0 ≤ cG2.sigma ∧ 1 ≤ cG2.H ∧ 1 ≤ cG2.N ∧
      (generate_paths cG2 streamZ 0).1.length = cG2.N :=
  ⟨show (0 : ℝ) < 100 by norm_num, le_refl _, by decide, by decide,
    (generate_paths_gbm cG2 streamZ 0 (show (0 : ℝ) < 100 by norm_num) (le_refl _)
      (by decide) (by decide)).2.1⟩

/-! ### Parameter estimation -/

theorem pctChangeReturns_length (closes : List ℚ) :
    (pctChangeReturns closes).length = closes.length - 1 := by
  rw [pctChangeReturns, List.length_map, List.length_zip, List.length_tail]
  omega

/-- C9 (amended): every higher timeframe (`1d`, `4h`, `1h`) with at least two
bars contributes the estimate `µ = mean(r) * ppy(tf)`,
`σ = std(r) * √ppy(tf)` over the simple returns `r_t = close_t/close_{t-1} - 1`;
only higher timeframes are estimated; and `periods_per_year` is exactly the
claimed table. -/
theorem calculate_htf_parameters_spec (data : Timeframe → List Bar) (tf : Timeframe)
    (htf : tf ∈ HTF_TIMEFRAMES) (h2 : 2 ≤ (data tf).length) :
    (tf, qMean (pctChangeReturns ((data tf).map Bar.bclose)) * periods_per_year tf,
        sampleStd (pctChangeReturns ((data tf).map Bar.bclose))
          * Real.sqrt ((periods_per_year tf : ℚ) : ℝ)) ∈ calculate_htf_parameters data ∧
      (∀ p ∈ calculate_htf_parameters data, p.1 ∈ HTF_TIMEFRAMES) ∧
      periods_per_year Timeframe.d1 = 252 ∧
      periods_per_year Timeframe.h1 = 252 * (13 / 2) ∧
      periods_per_year Timeframe.h4 = 252 * (13 / 2) / 4 ∧
      periods_per_year Timeframe.m15 = 252 * (13 / 2) * 4 ∧
      periods_per_year Timeframe.m5 = 252 * (13 / 2) * 12 ∧
      periods_per_year Timeframe.m1 = 252 * (13 / 2) * 60 := by
  refine ⟨?_, ?_, rfl, rfl, rfl, rfl, rfl, rfl⟩
  · rw [calculate_htf_parameters]
    apply List.mem_filterMap.mpr
    refine ⟨tf, htf, ?_⟩
    rw [if_neg (by omega : ¬ (data tf).length < 2)]
    have hrlen : ¬ (pctChangeReturns ((data tf).map Bar.bclose)).length = 0 := by
      rw [pctChangeReturns_length, List.length_map]
      omega
    rw [if_neg hrlen]
  · intro p hp
    rw [calculate_htf_parameters] at hp
    obtain ⟨a, ha, hfa⟩ := List.mem_filterMap.mp hp
    by_cases hc1 : (data a).length < 2
    · rw [if_pos hc1] at hfa
      exact absurd hfa (by simp)
    · rw [if_neg hc1] at hfa
      by_cases hc2 : (pctChangeReturns ((data a).map Bar.bclose)).length = 0
      · rw [if_pos hc2] at hfa
        exact absurd hfa (by simp)
      · rw [if_neg hc2] at hfa
        have hpa : p.1 = a := by
          rw [← Option.some.inj hfa]
        rw [hpa]
        exact ha

/-- C9 counterexample: a store whose only populated timeframe is `15m` with
three bars — more than two bars, yet the estimator returns no estimate at
all, because only the higher timeframes `1d`, `4h`, `1h` are visited. -/
theorem calculate_htf_parameters_ltf_counterexample :
    2 ≤ (dataC9 Timeframe.m15).length ∧ calculate_htf_parameters dataC9 = [] :=
  ⟨by decide, rfl⟩

/-- C9 witness. -/
theorem calculate_htf_parameters_spec_witness :
    Timeframe.d1 ∈ HTF_TIMEFRAMES ∧ 2 ≤ (dataC9W Timeframe.d1).length ∧
      (Timeframe.d1,
        qMean (pctChangeReturns ((dataC9W Timeframe.d1).map Bar.bclose))
          * periods_per_year Timeframe.d1,
        sampleStd (pctChangeReturns ((dataC9W Timeframe.d1).map Bar.bclose))
          * Real.sqrt ((periods_per_year Timeframe.d1 : ℚ) : ℝ))
        ∈ calculate_htf_parameters dataC9W :=
  ⟨by decide, by decide,
    (calculate_htf_parameters_spec dataC9W Timeframe.d1 (by decide) (by decide)).1⟩

/-! ### Latest-bar ingestion -/

theorem insertBar_perm (b : Bar) (l : List Bar) : (insertBar b l).Perm (b :: l) := by
  induction l with
  | nil => exact List.Perm.refl _
  | cons c cs ih =>
    rw [insertBar]
    by_cases hc : c.ts ≤ b.ts
    · rw [if_pos hc]
      exact (ih.cons c).trans (List.Perm.swap b c cs)
    · rw [if_neg hc]

theorem sortBars_perm (l : List Bar) : (sortBars l).Perm l := by
  induction l with
  | nil => exact List.Perm.refl _
  | cons x xs ih =>
    show (insertBar x (sortBars xs)).Perm (x :: xs)
    exact (insertBar_perm x (sortBars xs)).trans (ih.cons x)

theorem insertBar_sorted (b : Bar) (l : List Bar)
    (h : l.Pairwise (fun x y => x.ts ≤ y.ts)) :
    (insertBar b l).Pairwise (fun x y => x.ts ≤ y.ts) := by
  induction l with
  | nil => exact List.pairwise_singleton _ _
  | cons c cs ih =>
    rw [List.pairwise_cons] at h
    obtain ⟨hc1, hcs⟩ := h
    rw [insertBar]
    by_cases hc : c.ts ≤ b.ts
    · rw [if_pos hc, List.pairwise_cons]
      refine ⟨?_, ih hcs⟩
      intro u hu
      rcases List.mem_cons.mp ((insertBar_perm b cs).mem_iff.mp hu) with rfl | hu'
      · exact hc
      · exact hc1 u hu'
    · rw [if_neg hc, List.pairwise_cons]
      refine ⟨?_, List.pairwise_cons.mpr ⟨hc1, hcs⟩⟩
      intro u hu
      rcases List.mem_cons.mp hu with rfl | hu'
      · exact le_of_lt (not_le.mp hc)
      · exact le_trans (le_of_lt (not_le.mp hc)) (hc1 u hu')

theorem sortBars_sorted (l : List Bar) :
    (sortBars l).Pairwise (fun x y => x.ts ≤ y.ts) := by
  induction l with
  | nil => exact List.Pairwise.nil
  | cons x xs ih =>
    show (insertBar x (sortBars xs)).Pairwise _
    exact insertBar_sorted x (sortBars xs) ih

/-- C10 (amended): during `update_latest_bars`, a fetched bar whose
timestamp is already present is dropped (the stored series is unchanged); a
fresh-timestamped bar is appended and the series re-sorted — preserving
strictly increasing timestamps — but only when the stored series is
nonempty: when it is empty the bar is not stored. -/
theorem update_latest_one_spec (series : List Bar) (b : Bar)
    (hs : series.Pairwise (fun x y => x.ts < y.ts)) :
    (b.ts ∈ series.map Bar.ts → update_latest_one series (some b) = series) ∧
      (series = [] → update_latest_one series (some b) = series) ∧
      (series ≠ [] → b.ts ∉ series.map Bar.ts →
        (update_latest_one series (some b)).Perm (series ++ [b]) ∧
        (update_latest_one series (some b)).Pairwise (fun x y => x.ts < y.ts)) ∧
      update_latest_one series none = series := by
  refine ⟨?_, ?_, ?_, rfl⟩
  · intro hmem
    rw [update_latest_one]
    by_cases he : series = []
    · rw [if_pos he]
    · rw [if_neg he, if_pos hmem]
  · intro he
    rw [update_latest_one, if_pos he]
  · intro hne hmem
    have hupd : update_latest_one series (some b) = sortBars (series ++ [b]) := by
      rw [update_latest_one, if_neg hne, if_neg hmem]
    have hperm : (update_latest_one series (some b)).Perm (series ++ [b]) := by
      rw [hupd]
      exact sortBars_perm _
    refine ⟨hperm, ?_⟩
    have hsorted : (update_latest_one series (some b)).Pairwise
        (fun x y => x.ts ≤ y.ts) := by
      rw [hupd]
      exact sortBars_sorted _
    have hnd : ((series ++ [b]).map Bar.ts).Nodup := by
      rw [List.map_append]
      apply List.Nodup.append
      · exact (List.Pairwise.map Bar.ts (fun x y hxy => hxy) hs).imp ne_of_lt
      · simp
      · intro a ha hb
        rw [List.mem_map] at hb
        obtain ⟨c, hc, hcts⟩ := hb
        rw [List.mem_singleton] at hc
        rw [hc] at hcts
        rw [← hcts] at ha
        exact hmem ha
    have hndupd : ((update_latest_one series (some b)).map Bar.ts).Nodup :=
      (List.Perm.map Bar.ts hperm).nodup_iff.mpr hnd
    have hnepw : (update_latest_one series (some b)).Pairwise
        (fun x y => x.ts ≠ y.ts) := List.pairwise_map.mp hndupd
    exact (hsorted.and hnepw).imp (fun h => lt_of_le_of_ne h.1 h.2)

/-- C10 counterexample: on an empty stored series a fetched bar with a fresh
timestamp is not appended — the series stays empty, where the claim demands
an append. -/
theorem update_latest_one_empty_counterexample :
    update_latest_one [] (some barX) = [] := rfl

/-- C10 witness. -/
theorem update_latest_one_spec_witness :
    seriesX.Pairwise (fun x y => x.ts < y.ts) ∧
      (seriesX ≠ [] → barX.ts ∉ seriesX.map Bar.ts →
        (update_latest_one seriesX (some barX)).Perm (seriesX ++ [barX]) ∧
        (update_latest_one seriesX (some barX)).Pairwise (fun x y => x.ts < y.ts)) :=
  ⟨by decide, (update_latest_one_spec seriesX barX (by decide)).2.2.1⟩

end GBM
